import Mathlib

/-!
Verification of the `env` shell-environment encoder.

The encoder walks a (possibly nested, possibly cyclic through pointers)
record value and emits lines of the form `export NAME='VALUE'`, driven by
per-field `env:"NAME,opts"` annotations.  We embed the Go source
(`encode.go`) shallowly: Go values become the inductive `Value` (with a
`Fields` list for struct fields), pointers become heap addresses into an
explicit heap, and the encoder's `visited` map keyed by value identity
becomes a list of `VId` identities (a fresh identity per field slot, a
shared identity per heap cell, mirroring Go address identity).  The
recursion is made total with an explicit fuel parameter; a dedicated
theorem shows the fuel bound used by `Marshal` always suffices, so the
fuel is an artifact of the embedding, not of the program.
-/

namespace Env

/-- The kind classification for Go kinds that fall into the encoder's
`default` switch branch: `hasLen` covers `Array`, `Map`, `Slice`
(whose `isEmptyValue` is `Len() == 0`), `noLen` covers `Chan`, `Func`
and the remaining kinds (for which `isEmptyValue` is `false`). -/
inductive OtherKind where
  | hasLen
  | noLen
deriving DecidableEq

mutual
/-- Embedding of the Go values the encoder dispatches on: signed and
unsigned integers, floats, strings, booleans, pointers/interfaces (a
nullable heap address), structs, and everything else (`vother`, carrying
the textual type description `reflect.Type.String()` and, for
length-bearing kinds, the length).  A float field carries exactly the two
attributes the encoder observes of it: its default textual rendering
(`fmt.Sprintf("%v", v.Float())`, carried as data because IEEE-754
formatting itself is outside the embedding) and whether `v.Float() == 0`. -/
inductive Value where
  | vint (n : Int)
  | vuint (n : Nat)
  | vfloat (render : String) (isZero : Bool)
  | vstr (s : String)
  | vbool (b : Bool)
  | vptr (addr : Option Nat)
  | vstruct (fields : Fields)
  | vother (k : OtherKind) (typeName : String) (len : Nat)

/-- A struct's statically declared field list, in declaration order:
each field carries its static identifier (`reflect.StructField.Name`),
its raw `env` tag string (`Tag.Get("env")`, empty when absent) and its
value. -/
inductive Fields where
  | nil
  | cons (fname : String) (ftag : String) (fval : Value) (rest : Fields)
end

/-- A value identity, standing for the Go `reflect.Value` map key (which
compares by data address): `root p` is the field slot at path `p` inside
the root argument's copy, `cell a p` is the field slot at path `p`
inside the heap cell at address `a`.  Two pointers to the same cell
dereference to the same identity, as in Go. -/
inductive VId where
  | root (path : List Nat)
  | cell (addr : Nat) (path : List Nat)
deriving DecidableEq

/-- The identity of field `i` of the value with identity `id`. -/
def VId.child : VId → Nat → VId
  | .root p, i => .root (p ++ [i])
  | .cell a p, i => .cell a (p ++ [i])

/-- `encodeState`: the output buffer (one entry per written line) and the
set of already-visited value identities. -/
structure encodeState where
  buffer : List String
  visited : List VId
deriving DecidableEq

/-- The encoder's error type.  `unsupportedType t` embeds
`UnsupportedTypeError(t)`; `wrapped f e` embeds
`fmt.Errorf("visiting %v: %w", f, e)`, which wraps `e` and is unwrapped
again by `errors.Is`. -/
inductive EncodeError where
  | unsupportedType (typeName : String)
  | wrapped (field : String) (err : EncodeError)
deriving DecidableEq

/-- The rendered message of an error, following `UnsupportedTypeError.Error`
and the `fmt.Errorf` format string. -/
def EncodeError.message : EncodeError → String
  | .unsupportedType t => "unsupported type: " ++ t
  | .wrapped f e => "visiting " ++ f ++ ": " ++ e.message

/-- Embedding of Go `errors.Is` for this error type: compare at each level
of the unwrap chain. -/
def errorsIs : EncodeError → EncodeError → Bool
  | .unsupportedType t, target => EncodeError.unsupportedType t == target
  | .wrapped f inner, target => (EncodeError.wrapped f inner == target) || errorsIs inner target

/-- The innermost type string of an error's unwrap chain. -/
def rootCause : EncodeError → String
  | .unsupportedType t => t
  | .wrapped _ e => rootCause e

/-- `isEmptyValue` from the source: zero number, empty string, false
boolean, zero length, nil pointer/interface; `false` for kinds not in
its switch (including structs). -/
def isEmptyValue : Value → Bool
  | .vother .hasLen _ len => len == 0
  | .vstr s => s.length == 0
  | .vbool b => !b
  | .vint n => n == 0
  | .vuint n => n == 0
  | .vfloat _ isZero => isZero
  | .vptr addr => addr.isNone
  | .vstruct _ => false
  | .vother .noLen _ _ => false

/-- `strings.Index(s, ",")` together with the two slices the source takes:
the text before the first comma, and (when a comma exists) the text after
it. -/
def breakComma : List Char → List Char × Option (List Char)
  | [] => ([], none)
  | c :: cs =>
    if c = ',' then ([], some cs)
    else
      let r := breakComma cs
      (c :: r.1, r.2)

/-- The option part of a parsed tag (`type tagOptions string`), kept as
its character list. -/
abbrev tagOptions := List Char

/-- `parseTag`: the declared name is the text before the first comma; the
options are the text after it (empty when there is no comma). -/
def parseTag (tag : String) : String × tagOptions :=
  match breakComma tag.data with
  | (n, some rest) => (String.mk n, rest)
  | (_, none) => (tag, [])

/-- The scanning loop of `tagOptions.Contains`, written with an explicit
accumulator for the current segment: at each comma (and at the end of the
string) the segment gathered so far is compared with the option name; the
loop stops without a comparison when the remainder after a comma is
empty, exactly as the source loop's `for s != ""` condition does. -/
def scanOpt (opt : List Char) : List Char → List Char → Bool
  | acc, [] => acc.reverse == opt
  | acc, c :: cs =>
    if c = ',' then
      if acc.reverse == opt then true
      else if cs.length = 0 then false
      else scanOpt opt [] cs
    else scanOpt opt (c :: acc) cs

/-- `tagOptions.Contains`: empty options contain nothing; otherwise scan
the comma-separated segments. -/
def tagOptions.Contains (o : tagOptions) (optionName : String) : Bool :=
  if List.length o = 0 then false else scanOpt optionName.data [] o

/-- The result of a visit: `ok` and `err` carry the encoder state (the
buffer keeps whatever was accumulated); `out` means the embedding's fuel
ran out and corresponds to no program outcome. -/
inductive VisitResult where
  | out
  | ok (st : encodeState)
  | err (e : EncodeError) (st : encodeState)
deriving DecidableEq

/-- The effective name of a field: the two lines of the struct case that
combine the declared name with the enclosing name (`tag`):
`if tag != "" && name == "" { name = tag + "_" + FieldName }`. -/
def fieldEffName (tag name fname : String) : String :=
  if tag ≠ "" ∧ name = "" then tag ++ "_" ++ fname else name

/-- The struct case's field loop, abstracted over the visit of a single
child (`visitValue` at one fuel less): resolve the tag, compute the
effective name, visit the field, and on a child error wrap it with the
field's static identifier and abort the remaining siblings. -/
def visitFields (visitChild : encodeState → Value → VId → String → Bool → VisitResult) :
    encodeState → Fields → Nat → VId → String → VisitResult
  | st, .nil, _, _, _ => .ok st
  | st, .cons fname ftag fval rest, i, id, tag =>
    let pt := parseTag ftag
    let name := fieldEffName tag pt.1 fname
    match visitChild st fval (id.child i) name (tagOptions.Contains pt.2 "omitempty") with
    | .out => .out
    | .err e st1 => .err (.wrapped fname e) st1
    | .ok st1 => visitFields visitChild st1 rest (i + 1) id tag

/-- `visitValue`, the encoder's recursive visit, with an explicit fuel
parameter (the Go recursion carries none; sufficiency of the fuel used by
`Marshal` is proved below).  It checks and then unconditionally marks the
value's identity, then dispatches on the kind: supported scalars emit one
`export NAME='VALUE'` line when the effective name is non-empty and the
value is not suppressed by omit-empty; non-nil pointers and interfaces
recurse into the pointee carrying the same name and omit-empty `false`;
structs iterate their declared fields; every other kind is an
`UnsupportedTypeError` unless unreachable or suppressed. -/
def visitValue (heap : List Value) : Nat → encodeState → Value → VId → String → Bool → VisitResult
  | 0, _, _, _, _, _ => .out
  | fuel + 1, st, v, id, tag, omitEmpty =>
    if id ∈ st.visited then .ok st
    else
      let st1 : encodeState := { st with visited := id :: st.visited }
      match v with
      | .vint n =>
        if !(tag == "") && !(omitEmpty && isEmptyValue (.vint n)) then
          .ok { st1 with buffer := st1.buffer ++ ["export " ++ tag ++ "=\x27" ++ toString n ++ "\x27\n"] }
        else .ok st1
      | .vuint n =>
        if !(tag == "") && !(omitEmpty && isEmptyValue (.vuint n)) then
          .ok { st1 with buffer := st1.buffer ++ ["export " ++ tag ++ "=\x27" ++ toString n ++ "\x27\n"] }
        else .ok st1
      | .vfloat render isZero =>
        if !(tag == "") && !(omitEmpty && isEmptyValue (.vfloat render isZero)) then
          .ok { st1 with buffer := st1.buffer ++ ["export " ++ tag ++ "=\x27" ++ render ++ "\x27\n"] }
        else .ok st1
      | .vstr s =>
        if !(tag == "") && !(omitEmpty && isEmptyValue (.vstr s)) then
          .ok { st1 with buffer := st1.buffer ++ ["export " ++ tag ++ "=\x27" ++ s ++ "\x27\n"] }
        else .ok st1
      | .vptr addr =>
        match addr with
        | none => .ok st1
        | some a =>
          match heap.get? a with
          | none => .ok st1
          | some w => visitValue heap fuel st1 w (.cell a []) tag false
      | .vstruct fields => visitFields (visitValue heap fuel) st1 fields 0 id tag
      | .vbool b =>
        if !(tag == "") && !(omitEmpty && isEmptyValue (.vbool b)) then
          .err (.unsupportedType "bool") st1
        else .ok st1
      | .vother k tn len =>
        if !(tag == "") && !(omitEmpty && isEmptyValue (.vother k tn len)) then
          .err (.unsupportedType tn) st1
        else .ok st1

mutual
/-- The height of a value: nesting depth of struct constructors. -/
def heightV : Value → Nat
  | .vstruct fields => 1 + heightF fields
  | _ => 1

/-- The maximum height of the values in a field list. -/
def heightF : Fields → Nat
  | .nil => 0
  | .cons _ _ v rest => max (heightV v) (heightF rest)
end

/-- The maximum height of the heap's cells. -/
def cellHeight (heap : List Value) : Nat := (heap.map heightV).foldr max 0

/-- The number of heap cells whose root identity is not yet in the
visited list. -/
def cellsUnvisited (heap : List Value) (vis : List VId) : Nat :=
  ((Finset.range heap.length).filter (fun a => VId.cell a [] ∉ vis)).card

/-- A fuel amount sufficient for any walk of `v` over `heap` (proved
below): one full descent per heap cell plus one for the root. -/
def enoughFuel (heap : List Value) (v : Value) : Nat :=
  (cellHeight heap + 1) * (heap.length + 1) + heightV v

deriving instance DecidableEq for Except

/-- `Marshal`: run the visit with an empty buffer, an empty visited set,
an empty top-level name and omit-empty `false`; on success return the
buffer's concatenated bytes, on failure only the error (the accumulated
buffer is dropped, matching `return nil, err`).  The `none` result is
the fuel artifact and is proved unreachable below. -/
def Marshal (heap : List Value) (v : Value) : Option (Except EncodeError String) :=
  match visitValue heap (enoughFuel heap v) { buffer := [], visited := [] } v (.root []) "" false with
  | .out => none
  | .ok st => some (.ok (String.join st.buffer))
  | .err e _ => some (.error e)

/-- A well-formed output line: `export <NAME>='<VALUE>'` plus newline. -/
def lineWF (l : String) : Prop :=
  ∃ n v, l = "export " ++ n ++ "=\x27" ++ v ++ "\x27\n"

/-- One encoder state extends another: the visited set only grows and the
buffer only gains whole well-formed lines at its end. -/
def stExt (st st1 : encodeState) : Prop :=
  (∀ x ∈ st.visited, x ∈ st1.visited) ∧
  ∃ ext, st1.buffer = st.buffer ++ ext ∧ ∀ l ∈ ext, lineWF l

/-- A visit result extends the entry state (vacuous for the fuel
artifact). -/
def resExt (st : encodeState) : VisitResult → Prop
  | .out => True
  | .ok st1 => stExt st st1
  | .err _ st1 => stExt st st1

/-- The buffer carried by a visit result. -/
def VisitResult.bufferOf : VisitResult → Option (List String)
  | .out => none
  | .ok st => some st.buffer
  | .err _ st => some st.buffer

/-- The comma-separated segments of a character list (the first segment
is the text before the first comma). -/
def segsAux : List Char → List Char → List (List Char)
  | acc, [] => [acc.reverse]
  | acc, c :: cs => if c = ',' then acc.reverse :: segsAux [] cs else segsAux (c :: acc) cs

/-- All comma-separated segments of a string's character list. -/
def segs (s : List Char) : List (List Char) := segsAux [] s

/-- A breadcrumb chain of field identifiers wrapped around a bare
unsupported-type error. -/
def wrapChain : List String → String → EncodeError
  | [], t => .unsupportedType t
  | f :: fs, t => .wrapped f (wrapChain fs t)

theorem stExt_refl (st : encodeState) : stExt st st :=
  ⟨fun _ h => h, [], by simp, by simp⟩

theorem stExt_trans {st1 st2 st3 : encodeState} (h1 : stExt st1 st2) (h2 : stExt st2 st3) :
    stExt st1 st3 := by
  obtain ⟨hv1, e1, hb1, hw1⟩ := h1
  obtain ⟨hv2, e2, hb2, hw2⟩ := h2
  refine ⟨fun x hx => hv2 x (hv1 x hx), e1 ++ e2, ?_, ?_⟩
  · rw [hb2, hb1, List.append_assoc]
  · intro l hl
    rcases List.mem_append.mp hl with h | h
    · exact hw1 l h
    · exact hw2 l h

theorem stExt_mark (st : encodeState) (id : VId) :
    stExt st { st with visited := id :: st.visited } :=
  ⟨fun x hx => List.mem_cons_of_mem _ hx, [], by simp, by simp⟩

theorem resExt_weaken {st st1 : encodeState} {r : VisitResult} (h : stExt st st1)
    (hr : resExt st1 r) : resExt st r := by
  cases r with
  | out => trivial
  | ok st2 => exact stExt_trans h hr
  | err e st2 => exact stExt_trans h hr

/-- Unfolding of the field loop at a cons cell. -/
theorem visitFields_cons (vc : encodeState → Value → VId → String → Bool → VisitResult)
    (st : encodeState) (fname ftag : String) (fval : Value) (rest : Fields) (i : Nat)
    (id : VId) (tag : String) :
    visitFields vc st (.cons fname ftag fval rest) i id tag =
      match vc st fval (id.child i) (fieldEffName tag (parseTag ftag).1 fname)
          (tagOptions.Contains (parseTag ftag).2 "omitempty") with
      | .out => .out
      | .err e st1 => .err (.wrapped fname e) st1
      | .ok st1 => visitFields vc st1 rest (i + 1) id tag := rfl

theorem visitFields_ext (vc : encodeState → Value → VId → String → Bool → VisitResult)
    (h : ∀ st v id tag oe, resExt st (vc st v id tag oe)) :
    ∀ (fs : Fields) (st : encodeState) (i : Nat) (id : VId) (tag : String),
      resExt st (visitFields vc st fs i id tag)
  | .nil, st, i, id, tag => by simp [visitFields, resExt, stExt_refl]
  | .cons fname ftag fval rest, st, i, id, tag => by
    rw [visitFields_cons]
    have hc := h st fval (id.child i) (fieldEffName tag (parseTag ftag).1 fname)
      (tagOptions.Contains (parseTag ftag).2 "omitempty")
    cases hr : vc st fval (id.child i) (fieldEffName tag (parseTag ftag).1 fname)
        (tagOptions.Contains (parseTag ftag).2 "omitempty") with
    | out => trivial
    | err e st1 =>
      rw [hr] at hc
      exact hc
    | ok st1 =>
      rw [hr] at hc
      exact resExt_weaken hc (visitFields_ext vc h rest st1 (i + 1) id tag)

theorem visitValue_ext (heap : List Value) :
    ∀ (fuel : Nat) (st : encodeState) (v : Value) (id : VId) (tag : String) (oe : Bool),
      resExt st (visitValue heap fuel st v id tag oe) := by
  intro fuel
  induction fuel with
  | zero => intro st v id tag oe; simp [visitValue, resExt]
  | succ n ih =>
    intro st v id tag oe
    by_cases hid : id ∈ st.visited
    · simp [visitValue, hid, resExt, stExt_refl]
    · have hmark := stExt_mark st id
      cases v with
      | vint m =>
        simp only [visitValue, if_neg hid]
        split
        · exact stExt_trans hmark ⟨fun x hx => hx, _, rfl, by
            intro l hl
            simp only [List.mem_singleton] at hl
            exact ⟨tag, toString m, hl⟩⟩
        · exact hmark
      | vuint m =>
        simp only [visitValue, if_neg hid]
        split
        · exact stExt_trans hmark ⟨fun x hx => hx, _, rfl, by
            intro l hl
            simp only [List.mem_singleton] at hl
            exact ⟨tag, toString m, hl⟩⟩
        · exact hmark
      | vfloat render isZero =>
        simp only [visitValue, if_neg hid]
        split
        · exact stExt_trans hmark ⟨fun x hx => hx, _, rfl, by
            intro l hl
            simp only [List.mem_singleton] at hl
            exact ⟨tag, render, hl⟩⟩
        · exact hmark
      | vstr s =>
        simp only [visitValue, if_neg hid]
        split
        · exact stExt_trans hmark ⟨fun x hx => hx, _, rfl, by
            intro l hl
            simp only [List.mem_singleton] at hl
            exact ⟨tag, s, hl⟩⟩
        · exact hmark
      | vbool b =>
        simp only [visitValue, if_neg hid]
        split
        · exact hmark
        · exact hmark
      | vother k tn len =>
        simp only [visitValue, if_neg hid]
        split
        · exact hmark
        · exact hmark
      | vptr addr =>
        cases addr with
        | none => simp only [visitValue, if_neg hid]; exact hmark
        | some a =>
          simp only [visitValue, if_neg hid]
          cases hga : heap.get? a with
          | none => exact hmark
          | some w =>
            exact resExt_weaken hmark (ih _ w (.cell a []) tag false)
      | vstruct fields =>
        simp only [visitValue, if_neg hid]
        exact resExt_weaken hmark (visitFields_ext (visitValue heap n) (ih) fields _ 0 id tag)

theorem cellsUnvisited_le_of_subset (heap : List Value) {vis vis1 : List VId}
    (h : ∀ x ∈ vis, x ∈ vis1) :
    cellsUnvisited heap vis1 ≤ cellsUnvisited heap vis := by
  apply Finset.card_le_card
  intro a ha
  simp only [cellsUnvisited, Finset.mem_filter] at ha ⊢
  exact ⟨ha.1, fun hmem => ha.2 (h _ hmem)⟩

theorem cellsUnvisited_pos (heap : List Value) {vis : List VId} {a : Nat}
    (ha : a < heap.length) (hnv : VId.cell a [] ∉ vis) :
    1 ≤ cellsUnvisited heap vis := by
  apply Finset.card_pos.mpr
  exact ⟨a, by simp [cellsUnvisited, Finset.mem_filter, Finset.mem_range, ha, hnv]⟩

theorem cellsUnvisited_cons_cell (heap : List Value) (vis : List VId) (a : Nat)
    (ha : a < heap.length) (hnv : VId.cell a [] ∉ vis) :
    cellsUnvisited heap (VId.cell a [] :: vis) + 1 = cellsUnvisited heap vis := by
  have hmem : a ∈ (Finset.range heap.length).filter (fun b => VId.cell b [] ∉ vis) := by
    simp [Finset.mem_filter, Finset.mem_range, ha, hnv]
  have hset : (Finset.range heap.length).filter (fun b => VId.cell b [] ∉ VId.cell a [] :: vis) =
      ((Finset.range heap.length).filter (fun b => VId.cell b [] ∉ vis)).erase a := by
    ext b
    simp only [Finset.mem_filter, Finset.mem_erase, Finset.mem_range, List.mem_cons,
      VId.cell.injEq, and_true]
    tauto
  unfold cellsUnvisited
  rw [hset, Finset.card_erase_of_mem hmem]
  have hpos : 1 ≤ ((Finset.range heap.length).filter (fun b => VId.cell b [] ∉ vis)).card :=
    Finset.card_pos.mpr ⟨a, hmem⟩
  omega

theorem cellsUnvisited_le_length (heap : List Value) (vis : List VId) :
    cellsUnvisited heap vis ≤ heap.length := by
  calc cellsUnvisited heap vis ≤ (Finset.range heap.length).card := Finset.card_filter_le _ _
    _ = heap.length := Finset.card_range _

theorem heightV_mem_le (l : List Value) : ∀ w ∈ l, heightV w ≤ (l.map heightV).foldr max 0 := by
  induction l with
  | nil => intro w hw; simp at hw
  | cons x xs ih =>
    intro w hw
    rcases List.mem_cons.mp hw with h | h
    · subst h; simp [le_max_iff]
    · simp only [List.map_cons, List.foldr_cons, le_max_iff]
      exact Or.inr (ih w h)

theorem heightV_le_cellHeight (heap : List Value) {a : Nat} {w : Value}
    (h : heap.get? a = some w) : heightV w ≤ cellHeight heap :=
  heightV_mem_le heap w (List.get?_mem h)

theorem heightV_pos (v : Value) : 1 ≤ heightV v := by
  cases v <;> simp [heightV]

theorem heightF_cons_left (fname ftag : String) (fval : Value) (rest : Fields) :
    heightV fval ≤ heightF (.cons fname ftag fval rest) := by
  simp [heightF]

theorem heightF_cons_right (fname ftag : String) (fval : Value) (rest : Fields) :
    heightF rest ≤ heightF (.cons fname ftag fval rest) := by
  simp [heightF]

theorem visitFields_ne_out (heap : List Value) (n : Nat)
    (IH : ∀ st v id tag oe,
      (cellHeight heap + 1) * cellsUnvisited heap (id :: st.visited) + heightV v < n →
      visitValue heap n st v id tag oe ≠ .out) :
    ∀ (fs : Fields) (st : encodeState) (i : Nat) (id : VId) (tag : String) (B : List VId),
      (∀ x ∈ B, x ∈ st.visited) →
      (cellHeight heap + 1) * cellsUnvisited heap B + heightF fs < n →
      visitFields (visitValue heap n) st fs i id tag ≠ .out
  | .nil, st, i, id, tag, B, hB, hm => by simp [visitFields]
  | .cons fname ftag fval rest, st, i, id, tag, B, hB, hm => by
    have hchild : (cellHeight heap + 1) * cellsUnvisited heap (id.child i :: st.visited) +
        heightV fval < n := by
      have h1 : cellsUnvisited heap (id.child i :: st.visited) ≤ cellsUnvisited heap B :=
        cellsUnvisited_le_of_subset heap
          (fun x hx => List.mem_cons_of_mem _ (hB x hx))
      have h2 : heightV fval ≤ heightF (.cons fname ftag fval rest) :=
        heightF_cons_left fname ftag fval rest
      have h3 : (cellHeight heap + 1) * cellsUnvisited heap (id.child i :: st.visited) ≤
          (cellHeight heap + 1) * cellsUnvisited heap B :=
        Nat.mul_le_mul_left _ h1
      omega
    rw [visitFields_cons]
    cases hr : visitValue heap n st fval (id.child i)
        (fieldEffName tag (parseTag ftag).1 fname)
        (tagOptions.Contains (parseTag ftag).2 "omitempty") with
    | out => exact absurd hr (IH st fval (id.child i) _ _ hchild)
    | err e st1 => simp
    | ok st1 =>
      have hmono := visitValue_ext heap n st fval (id.child i)
        (fieldEffName tag (parseTag ftag).1 fname)
        (tagOptions.Contains (parseTag ftag).2 "omitempty")
      rw [hr] at hmono
      have hB1 : ∀ x ∈ B, x ∈ st1.visited := fun x hx => hmono.1 x (hB x hx)
      have hm1 : (cellHeight heap + 1) * cellsUnvisited heap B + heightF rest < n := by
        have := heightF_cons_right fname ftag fval rest
        omega
      exact visitFields_ne_out heap n IH rest st1 (i + 1) id tag B hB1 hm1

theorem visitValue_ne_out (heap : List Value) :
    ∀ (fuel : Nat) (st : encodeState) (v : Value) (id : VId) (tag : String) (oe : Bool),
      (cellHeight heap + 1) * cellsUnvisited heap (id :: st.visited) + heightV v < fuel →
      visitValue heap fuel st v id tag oe ≠ .out := by
  intro fuel
  induction fuel with
  | zero => intro st v id tag oe h; exact absurd h (Nat.not_lt_zero _)
  | succ n ih =>
    intro st v id tag oe h
    by_cases hid : id ∈ st.visited
    · simp [visitValue, hid]
    · cases v with
      | vint m => simp only [visitValue, if_neg hid]; split <;> simp
      | vuint m => simp only [visitValue, if_neg hid]; split <;> simp
      | vfloat render isZero => simp only [visitValue, if_neg hid]; split <;> simp
      | vstr s => simp only [visitValue, if_neg hid]; split <;> simp
      | vbool b => simp only [visitValue, if_neg hid]; split <;> simp
      | vother k tn len => simp only [visitValue, if_neg hid]; split <;> simp
      | vptr addr =>
        cases addr with
        | none => simp [visitValue, hid]
        | some a =>
          simp only [visitValue, if_neg hid]
          cases hga : heap.get? a with
          | none => simp
          | some w =>
            have hv1 : heightV (Value.vptr (some a)) = 1 := rfl
            rw [hv1] at h
            by_cases hc : VId.cell a [] ∈ id :: st.visited
            · have hn : 0 < n := by
                have := Nat.le_of_lt_succ h
                omega
              obtain ⟨m, rfl⟩ := Nat.exists_eq_add_of_lt hn
              simp only [Nat.zero_add] at *
              simp [visitValue, hc]
            · have ha : a < heap.length := by
                rcases List.get?_eq_some.mp hga with ⟨hlt, _⟩
                exact hlt
              apply ih
              show (cellHeight heap + 1) *
                  cellsUnvisited heap (VId.cell a [] :: id :: st.visited) + heightV w < n
              have hcc := cellsUnvisited_cons_cell heap (id :: st.visited) a ha hc
              have hw : heightV w ≤ cellHeight heap := heightV_le_cellHeight heap hga
              have hexp : (cellHeight heap + 1) * cellsUnvisited heap (id :: st.visited) =
                  (cellHeight heap + 1) *
                    (cellsUnvisited heap (VId.cell a [] :: id :: st.visited) + 1) := by
                rw [hcc]
              rw [hexp, Nat.mul_succ] at h
              omega
      | vstruct fields =>
        simp only [visitValue, if_neg hid]
        apply visitFields_ne_out heap n ih fields _ 0 id tag (id :: st.visited)
          (fun x hx => hx)
        have hv1 : heightV (Value.vstruct fields) = 1 + heightF fields := rfl
        rw [hv1] at h
        omega

theorem Marshal_ne_none (heap : List Value) (v : Value) : Marshal heap v ≠ none := by
  have hb : (cellHeight heap + 1) *
      cellsUnvisited heap (VId.root [] :: ({ buffer := [], visited := [] } : encodeState).visited) +
      heightV v < enoughFuel heap v := by
    show (cellHeight heap + 1) * cellsUnvisited heap [VId.root []] + heightV v <
      enoughFuel heap v
    have h1 : cellsUnvisited heap [VId.root []] ≤ heap.length :=
      cellsUnvisited_le_length heap _
    have h2 : (cellHeight heap + 1) * cellsUnvisited heap [VId.root []] ≤
        (cellHeight heap + 1) * heap.length := Nat.mul_le_mul_left _ h1
    have h3 : (cellHeight heap + 1) * heap.length <
        (cellHeight heap + 1) * (heap.length + 1) :=
      mul_lt_mul_of_pos_left (Nat.lt_succ_self _) (Nat.succ_pos _)
    unfold enoughFuel
    omega
  have hne := visitValue_ne_out heap (enoughFuel heap v)
    { buffer := [], visited := [] } v (.root []) "" false hb
  unfold Marshal
  cases hv : visitValue heap (enoughFuel heap v)
      { buffer := [], visited := [] } v (.root []) "" false with
  | out => exact absurd hv hne
  | ok st => simp
  | err e st => simp

theorem Marshal_ok_lines (heap : List Value) (v : Value) (out : String)
    (h : Marshal heap v = some (.ok out)) :
    ∃ lines, out = String.join lines ∧ ∀ l ∈ lines, lineWF l := by
  unfold Marshal at h
  cases hv : visitValue heap (enoughFuel heap v)
      { buffer := [], visited := [] } v (.root []) "" false with
  | out => rw [hv] at h; simp at h
  | err e st => rw [hv] at h; simp at h
  | ok st =>
    rw [hv] at h
    simp only [Option.some.injEq, Except.ok.injEq] at h
    have hext := visitValue_ext heap (enoughFuel heap v)
      { buffer := [], visited := [] } v (.root []) "" false
    rw [hv] at hext
    obtain ⟨_, ext, hbuf, hwf⟩ := hext
    refine ⟨st.buffer, h.symm, ?_⟩
    intro l hl
    rw [hbuf] at hl
    simp only [List.nil_append] at hl
    exact hwf l hl

theorem errorsIs_rootCause (e : EncodeError) :
    errorsIs e (.unsupportedType (rootCause e)) = true := by
  induction e with
  | unsupportedType t => simp [errorsIs, rootCause]
  | wrapped f inner ih => simp [errorsIs, rootCause, ih]

theorem eq_wrapChain (e : EncodeError) : ∃ fs, e = wrapChain fs (rootCause e) := by
  induction e with
  | unsupportedType t => exact ⟨[], rfl⟩
  | wrapped f inner ih =>
    obtain ⟨fs, hfs⟩ := ih
    exact ⟨f :: fs, by simp [wrapChain, rootCause, ← hfs]⟩

theorem Marshal_err_of_visit_err (heap : List Value) (v : Value) (e : EncodeError)
    (st1 : encodeState)
    (h : visitValue heap (enoughFuel heap v) { buffer := [], visited := [] } v
      (.root []) "" false = .err e st1) :
    Marshal heap v = some (.error e) := by
  unfold Marshal
  rw [h]

theorem breakComma_fst (s : List Char) :
    (breakComma s).1 = s.takeWhile (fun c => c != ',') := by
  induction s with
  | nil => rfl
  | cons c cs ih =>
    by_cases hc : c = ','
    · subst hc
      simp [breakComma, List.takeWhile_cons]
    · simp [breakComma, hc, List.takeWhile_cons, ih]

theorem breakComma_none_fst (s : List Char) (h : (breakComma s).2 = none) :
    (breakComma s).1 = s := by
  induction s with
  | nil => rfl
  | cons c cs ih =>
    by_cases hc : c = ','
    · subst hc; simp [breakComma] at h
    · simp only [breakComma, if_neg hc] at h ⊢
      rw [ih h]

theorem segsAux_eq (s : List Char) : ∀ acc,
    segsAux acc s =
      (acc.reverse ++ (breakComma s).1) :: (((breakComma s).2).map segs).getD [] := by
  induction s with
  | nil => intro acc; simp [segsAux, breakComma]
  | cons c cs ih =>
    intro acc
    by_cases hc : c = ','
    · subst hc
      have h1 : segsAux acc (',' :: cs) = acc.reverse :: segsAux [] cs := by
        simp [segsAux]
      have h2 : breakComma (',' :: cs) = ([], some cs) := by
        simp [breakComma]
      rw [h1, h2]
      simp [segs]
    · simp only [segsAux, breakComma, if_neg hc]
      rw [ih (c :: acc)]
      simp

theorem scanOpt_mem {opt : List Char} (hopt : opt ≠ []) :
    ∀ (s acc : List Char), (scanOpt opt acc s = true ↔ opt ∈ segsAux acc s) := by
  intro s
  induction s with
  | nil =>
    intro acc
    simp [scanOpt, segsAux]
    exact eq_comm
  | cons c cs ih =>
    intro acc
    by_cases hc : c = ','
    · subst hc
      have e1 : scanOpt opt acc (',' :: cs) =
          (if acc.reverse == opt then true else if cs.length = 0 then false
           else scanOpt opt [] cs) := by
        simp [scanOpt]
      have e2 : segsAux acc (',' :: cs) = acc.reverse :: segsAux [] cs := by
        simp [segsAux]
      rw [e1, e2]
      by_cases hacc : acc.reverse = opt
      · simp [hacc]
      · have hbeq : (acc.reverse == opt) = false := by
          simp [hacc]
        have hne : ¬opt = acc.reverse := fun h => hacc h.symm
        rw [hbeq]
        simp only [Bool.false_eq_true, if_false]
        by_cases hlen : cs.length = 0
        · have hcs : cs = [] := List.length_eq_zero.mp hlen
          subst hcs
          simp [segsAux, List.mem_cons, hopt]
          exact hne
        · rw [if_neg hlen, ih []]
          simp [List.mem_cons, hne]
    · simp only [scanOpt, segsAux, if_neg hc]
      exact ih (c :: acc)

theorem Contains_iff_mem_segs (o : tagOptions) (opt : String) (hopt : opt.data ≠ []) :
    (tagOptions.Contains o opt = true ↔ opt.data ∈ segs o) := by
  unfold tagOptions.Contains
  by_cases ho : List.length o = 0
  · have hnil : o = [] := List.length_eq_zero.mp ho
    subst hnil
    simp [segs, segsAux, hopt]
  · simp only [if_neg ho]
    exact scanOpt_mem hopt o []

theorem parseTag_fst_data (t : String) :
    ((parseTag t).1).data = t.data.takeWhile (fun c => c != ',') := by
  unfold parseTag
  cases hb : breakComma t.data with
  | mk n rest =>
    cases rest with
    | some r =>
      have h1 := breakComma_fst t.data
      rw [hb] at h1
      simpa using h1
    | none =>
      have h1 := breakComma_fst t.data
      rw [hb] at h1
      have h2 := breakComma_none_fst t.data (by rw [hb])
      rw [hb] at h2
      show t.data = List.takeWhile (fun c => c != ',') t.data
      exact h2 ▸ h1

theorem parseTag_snd_omitempty (t : String) :
    (tagOptions.Contains (parseTag t).2 "omitempty" = true ↔
      "omitempty".data ∈ (segs t.data).tail) := by
  have hseg := segsAux_eq t.data []
  unfold parseTag
  cases hb : breakComma t.data with
  | mk n rest =>
    rw [hb] at hseg
    cases rest with
    | none =>
      have htail : (segs t.data).tail = [] := by
        show (segsAux [] t.data).tail = []
        rw [hseg]
        simp
      rw [htail]
      simp [tagOptions.Contains]
    | some r =>
      have htail : (segs t.data).tail = segs r := by
        show (segsAux [] t.data).tail = segs r
        rw [hseg]
        simp
      rw [htail]
      exact Contains_iff_mem_segs r "omitempty" (by decide)

theorem visitValue_marks (heap : List Value) (fuel : Nat) (st : encodeState) (v : Value)
    (id : VId) (tag : String) (oe : Bool) (hid : id ∉ st.visited) :
    resExt { st with visited := id :: st.visited } (visitValue heap (fuel + 1) st v id tag oe) := by
  cases v with
  | vint m =>
    simp only [visitValue, if_neg hid]
    split
    · exact ⟨fun x hx => hx, _, rfl, by
        intro l hl
        simp only [List.mem_singleton] at hl
        exact ⟨tag, toString m, hl⟩⟩
    · exact stExt_refl _
  | vuint m =>
    simp only [visitValue, if_neg hid]
    split
    · exact ⟨fun x hx => hx, _, rfl, by
        intro l hl
        simp only [List.mem_singleton] at hl
        exact ⟨tag, toString m, hl⟩⟩
    · exact stExt_refl _
  | vfloat render isZero =>
    simp only [visitValue, if_neg hid]
    split
    · exact ⟨fun x hx => hx, _, rfl, by
        intro l hl
        simp only [List.mem_singleton] at hl
        exact ⟨tag, render, hl⟩⟩
    · exact stExt_refl _
  | vstr s =>
    simp only [visitValue, if_neg hid]
    split
    · exact ⟨fun x hx => hx, _, rfl, by
        intro l hl
        simp only [List.mem_singleton] at hl
        exact ⟨tag, s, hl⟩⟩
    · exact stExt_refl _
  | vbool b =>
    simp only [visitValue, if_neg hid]
    split
    · exact stExt_refl _
    · exact stExt_refl _
  | vother k tn len =>
    simp only [visitValue, if_neg hid]
    split
    · exact stExt_refl _
    · exact stExt_refl _
  | vptr addr =>
    cases addr with
    | none => simp only [visitValue, if_neg hid]; exact stExt_refl _
    | some a =>
      simp only [visitValue, if_neg hid]
      cases hga : heap.get? a with
      | none => exact stExt_refl _
      | some w => exact visitValue_ext heap fuel _ w (.cell a []) tag false
  | vstruct fields =>
    simp only [visitValue, if_neg hid]
    exact visitFields_ext (visitValue heap fuel) (visitValue_ext heap fuel) fields _ 0 id tag

/-- Claim C1 (counterexample): the claim says a non-null reference to a
scalar produces exactly the same line as that scalar tagged identically,
including under omitempty.  It does not: a pointer to the empty string
under `X,omitempty` emits `export X=''`, while the empty string itself
under `X,omitempty` emits nothing, because the pointer case recurses with
the omit-empty flag reset to false. -/
theorem reference_omitempty_cex :
    Marshal [Value.vstr ""] (.vstruct (.cons "A" "X,omitempty" (.vptr (some 0)) .nil)) =
      some (.ok "export X=\x27\x27\n") ∧
    Marshal [] (.vstruct (.cons "A" "X,omitempty" (.vstr "") .nil)) = some (.ok "") := by
  decide

/-- Claim C1 (amended): for a null reference the encoder emits nothing;
for a non-null reference it recurses into the held value carrying forward
the reference's own effective name but with the omit-empty flag reset to
false, so a non-null reference to a string scalar produces exactly the
same output as that scalar tagged with the same name and no omit-empty
flag. -/
theorem reference_transparency_amended :
    (∀ (heap : List Value) (fuel : Nat) (st : encodeState) (id : VId) (tag : String) (oe : Bool),
      id ∉ st.visited →
      visitValue heap (fuel + 1) st (.vptr none) id tag oe =
        .ok { st with visited := id :: st.visited }) ∧
    (∀ (heap : List Value) (fuel : Nat) (st : encodeState) (id : VId) (tag : String) (oe : Bool)
        (a : Nat) (w : Value), id ∉ st.visited → heap.get? a = some w →
      visitValue heap (fuel + 1) st (.vptr (some a)) id tag oe =
        visitValue heap fuel { st with visited := id :: st.visited } w (.cell a []) tag false) ∧
    (∀ (heap : List Value) (fuel : Nat) (st : encodeState) (id : VId) (tag : String) (oe : Bool)
        (a : Nat) (s : String), id ∉ st.visited → VId.cell a [] ∉ st.visited →
      id ≠ VId.cell a [] → heap.get? a = some (.vstr s) →
      (visitValue heap (fuel + 2) st (.vptr (some a)) id tag oe).bufferOf =
        (visitValue heap (fuel + 1) st (.vstr s) id tag false).bufferOf) := by
  refine ⟨?_, ?_, ?_⟩
  · intro heap fuel st id tag oe hid
    simp [visitValue, hid]
  · intro heap fuel st id tag oe a w hid hga
    rw [List.get?_eq_getElem?] at hga
    simp [visitValue, hid, hga]
  · intro heap fuel st id tag oe a s hid hcell hne hga
    rw [List.get?_eq_getElem?] at hga
    have h1 : visitValue heap (fuel + 1 + 1) st (.vptr (some a)) id tag oe =
        visitValue heap (fuel + 1) { st with visited := id :: st.visited } (.vstr s)
          (.cell a []) tag false := by
      simp [visitValue, hid, hga]
    rw [h1]
    have hc2 : VId.cell a [] ∉ id :: st.visited := by
      simp only [List.mem_cons]
      push_neg
      exact ⟨fun h => hne h.symm, hcell⟩
    by_cases htag : tag = ""
    · simp [visitValue, hc2, hid, htag, VisitResult.bufferOf]
    · simp [visitValue, hc2, hid, htag, VisitResult.bufferOf]

/-- Claim C1 (witness): the amended theorem applied to a pointer to the
string "hallo". -/
theorem reference_transparency_amended_witness :
    visitValue [Value.vstr "hallo"] 5 { buffer := [], visited := [] } (.vptr (some 0))
        (.root [0]) "X" true =
      visitValue [Value.vstr "hallo"] 4 { buffer := [], visited := [VId.root [0]] }
        (.vstr "hallo") (.cell 0 []) "X" false ∧
    (visitValue [Value.vstr "hallo"] 6 { buffer := [], visited := [] } (.vptr (some 0))
        (.root [0]) "X" true).bufferOf =
      (visitValue [Value.vstr "hallo"] 5 { buffer := [], visited := [] } (.vstr "hallo")
        (.root [0]) "X" false).bufferOf := by
  constructor
  · exact reference_transparency_amended.2.1 [Value.vstr "hallo"] 4
      { buffer := [], visited := [] } (.root [0]) "X" true 0 (.vstr "hallo")
      (by decide) (by rfl)
  · exact reference_transparency_amended.2.2 [Value.vstr "hallo"] 4
      { buffer := [], visited := [] } (.root [0]) "X" true 0 "hallo"
      (by decide) (by decide) (by decide) (by rfl)

/-- Claim C2: on success the output is a concatenation of lines, each of
the exact form `export <NAME>='<VALUE>'` plus newline; a float field
emits exactly its default rendering with no other transformation; a
record with one text field tagged `X` and value `hallo` yields exactly
`export X='hallo'` plus newline; a two-field record shows the
declaration-order concatenation with default scalar rendering, and a
float field its carried `%v` rendering. -/
theorem output_line_form :
    (∀ heap v out, Marshal heap v = some (.ok out) →
      ∃ lines, out = String.join lines ∧ ∀ l ∈ lines, lineWF l) ∧
    (∀ (heap : List Value) (fuel : Nat) (st : encodeState) (id : VId) (tag : String)
        (render : String) (isZero : Bool), id ∉ st.visited → tag ≠ "" →
      visitValue heap (fuel + 1) st (.vfloat render isZero) id tag false =
        .ok { buffer := st.buffer ++ ["export " ++ tag ++ "=\x27" ++ render ++ "\x27\n"],
              visited := id :: st.visited }) ∧
    Marshal [] (.vstruct (.cons "A" "X" (.vstr "hallo") .nil)) =
      some (.ok "export X=\x27hallo\x27\n") ∧
    Marshal [] (.vstruct (.cons "A" "MYVAR" (.vstr "hallo") (.cons "B" "B" (.vint 4711)
        (.cons "Ignored" "" (.vint 42) .nil)))) =
      some (.ok "export MYVAR=\x27hallo\x27\nexport B=\x274711\x27\n") ∧
    Marshal [] (.vstruct (.cons "F" "F" (.vfloat "1.5" false) .nil)) =
      some (.ok "export F=\x271.5\x27\n") := by
  refine ⟨Marshal_ok_lines, ?_, by decide, by decide, by decide⟩
  intro heap fuel st id tag render isZero hid htag
  simp [visitValue, hid, htag]

/-- Claim C2 (witness): the general part applied to the single-field
record, and the float-emission part applied to the rendering `1.5`. -/
theorem output_line_form_witness :
    (∃ lines, "export X=\x27hallo\x27\n" = String.join lines ∧ ∀ l ∈ lines, lineWF l) ∧
    visitValue [] 1 { buffer := [], visited := [] } (.vfloat "1.5" false) (.root [])
      "F" false =
      .ok { buffer := [] ++ ["export F=\x271.5\x27\n"], visited := [VId.root []] } :=
  ⟨output_line_form.1 [] (.vstruct (.cons "A" "X" (.vstr "hallo") .nil))
      "export X=\x27hallo\x27\n" (by decide),
    output_line_form.2.1 [] 0 { buffer := [], visited := [] } (.root []) "F" "1.5" false
      (by decide) (by decide)⟩

/-- Claim C3: an explicit declared name is used unchanged at every
nesting level (never prefixed); a field with no declared name under a
non-empty parent name gets `parent_FieldIdentifier`; concretely a record
tagged `S1` with explicitly tagged child `MYVAR` and untagged child `C`
emits `export MYVAR='hallo'` and `export S1_C='welt'`. -/
theorem effective_name_rules :
    (∀ tag name fname, name ≠ "" → fieldEffName tag name fname = name) ∧
    (∀ tag fname, tag ≠ "" → fieldEffName tag "" fname = tag ++ "_" ++ fname) ∧
    Marshal [] (.vstruct (.cons "S1" "S1" (.vstruct (.cons "A" "MYVAR" (.vstr "hallo")
        (.cons "C" "" (.vstr "welt") .nil))) .nil)) =
      some (.ok "export MYVAR=\x27hallo\x27\nexport S1_C=\x27welt\x27\n") := by
  refine ⟨?_, ?_, by decide⟩
  · intro tag name fname h
    simp [fieldEffName, h]
  · intro tag fname h
    simp [fieldEffName, h]

/-- Claim C3 (witness): the naming rules applied at parent name `S1`. -/
theorem effective_name_rules_witness :
    fieldEffName "S1" "MYVAR" "A" = "MYVAR" ∧ fieldEffName "S1" "" "C" = "S1_C" := by
  constructor
  · exact effective_name_rules.1 "S1" "MYVAR" "A" (by decide)
  · have h := effective_name_rules.2.1 "S1" "C" (by decide)
    rw [h]
    rfl

/-- Claim C4: every failing encode's error is the single UnsupportedType
kind at its root, wrapped by field identifiers, and `errors.Is`-style
comparison against the bare UnsupportedType value succeeds; the four
documented type strings are carried exactly, and a nested record wraps
the error at each enclosing level with the static field identifier. -/
theorem error_unsupported_wrapping :
    (∀ heap v e, Marshal heap v = some (.error e) →
      errorsIs e (.unsupportedType (rootCause e)) = true ∧
      ∃ fs, e = wrapChain fs (rootCause e)) ∧
    Marshal [] (.vstruct (.cons "Outer" "" (.vstruct (.cons "A" "M"
        (.vother .hasLen "map[string]int" 2) .nil)) .nil)) =
      some (.error (.wrapped "Outer" (.wrapped "A" (.unsupportedType "map[string]int")))) ∧
    errorsIs (.wrapped "Outer" (.wrapped "A" (.unsupportedType "map[string]int")))
      (.unsupportedType "map[string]int") = true ∧
    Marshal [] (.vstruct (.cons "A" "MYSLICE" (.vother .hasLen "[]string" 2) .nil)) =
      some (.error (.wrapped "A" (.unsupportedType "[]string"))) ∧
    Marshal [] (.vstruct (.cons "A" "MYARR" (.vother .hasLen "[2]string" 2) .nil)) =
      some (.error (.wrapped "A" (.unsupportedType "[2]string"))) ∧
    Marshal [] (.vstruct (.cons "A" "MYCHAN" (.vother .noLen "chan int" 0) .nil)) =
      some (.error (.wrapped "A" (.unsupportedType "chan int"))) := by
  exact ⟨fun heap v e _ => ⟨errorsIs_rootCause e, eq_wrapChain e⟩,
    by decide, by decide, by decide, by decide, by decide⟩

/-- Claim C4 (witness): the general part applied to the failing slice
record. -/
theorem error_unsupported_wrapping_witness :
    errorsIs (.wrapped "A" (.unsupportedType "[]string"))
      (.unsupportedType (rootCause (.wrapped "A" (.unsupportedType "[]string")))) = true ∧
    ∃ fs, (EncodeError.wrapped "A" (.unsupportedType "[]string")) =
      wrapChain fs (rootCause (.wrapped "A" (.unsupportedType "[]string"))) :=
  error_unsupported_wrapping.1 []
    (.vstruct (.cons "A" "MYSLICE" (.vother .hasLen "[]string" 2) .nil))
    (.wrapped "A" (.unsupportedType "[]string")) (by decide)

/-- Claim C5: a failing encode surfaces only the error and no bytes, even
though the visit's internal state had already accumulated the line
`export A='ok'` before reaching the failing field. -/
theorem no_partial_output_on_error :
    (∀ heap v e st1,
      visitValue heap (enoughFuel heap v) { buffer := [], visited := [] } v (.root [])
        "" false = .err e st1 →
      Marshal heap v = some (.error e)) ∧
    visitValue [] (enoughFuel [] (.vstruct (.cons "A" "A" (.vstr "ok") (.cons "B" "B"
        (.vother .hasLen "[]string" 2) .nil)))) { buffer := [], visited := [] }
      (.vstruct (.cons "A" "A" (.vstr "ok") (.cons "B" "B" (.vother .hasLen "[]string" 2) .nil)))
      (.root []) "" false =
      .err (.wrapped "B" (.unsupportedType "[]string"))
        { buffer := ["export A=\x27ok\x27\n"],
          visited := [VId.root [1], VId.root [0], VId.root []] } ∧
    Marshal [] (.vstruct (.cons "A" "A" (.vstr "ok") (.cons "B" "B"
        (.vother .hasLen "[]string" 2) .nil))) =
      some (.error (.wrapped "B" (.unsupportedType "[]string"))) := by
  exact ⟨Marshal_err_of_visit_err, by decide, by decide⟩

/-- Claim C5 (witness): the error-propagation part applied to the record
whose first field already produced a buffered line. -/
theorem no_partial_output_on_error_witness :
    Marshal [] (.vstruct (.cons "A" "A" (.vstr "ok") (.cons "B" "B"
        (.vother .hasLen "[]string" 2) .nil))) =
      some (.error (.wrapped "B" (.unsupportedType "[]string"))) :=
  no_partial_output_on_error.1 []
    (.vstruct (.cons "A" "A" (.vstr "ok") (.cons "B" "B" (.vother .hasLen "[]string" 2) .nil)))
    (.wrapped "B" (.unsupportedType "[]string"))
    { buffer := ["export A=\x27ok\x27\n"], visited := [VId.root [1], VId.root [0], VId.root []] }
    (by decide)

/-- Claim C6: encoding terminates on every input, including cyclic
reference graphs (the fuel used by Marshal never runs out); a value
identity already in the visited set is skipped with no emission and no
error; an unvisited identity is marked before dispatch (every outcome's
state extends the marked state); and a concrete self-referential heap
cell encodes without unbounded recursion, skipping the revisited cell. -/
theorem termination_and_visited_skip :
    (∀ heap v, Marshal heap v ≠ none) ∧
    (∀ (heap : List Value) (fuel : Nat) (st : encodeState) (v : Value) (id : VId)
        (tag : String) (oe : Bool), id ∈ st.visited →
      visitValue heap (fuel + 1) st v id tag oe = .ok st) ∧
    (∀ (heap : List Value) (fuel : Nat) (st : encodeState) (v : Value) (id : VId)
        (tag : String) (oe : Bool), id ∉ st.visited →
      resExt { st with visited := id :: st.visited }
        (visitValue heap (fuel + 1) st v id tag oe)) ∧
    Marshal [Value.vstruct (.cons "Self" "SELF" (.vptr (some 0)) (.cons "N" "N" (.vint 7) .nil))]
      (.vstruct (.cons "P" "P" (.vptr (some 0)) .nil)) =
      some (.ok "export N=\x277\x27\n") := by
  refine ⟨Marshal_ne_none, ?_, visitValue_marks, by decide⟩
  intro heap fuel st v id tag oe h
  simp [visitValue, h]

/-- Claim C6 (witness): skip and mark behaviour at concrete states. -/
theorem termination_and_visited_skip_witness :
    visitValue [] 1 { buffer := [], visited := [VId.root []] } (.vint 5) (.root [])
      "T" false = .ok { buffer := [], visited := [VId.root []] } ∧
    resExt { buffer := [], visited := [VId.root [], VId.root [7]] }
      (visitValue [] 1 { buffer := [], visited := [VId.root [7]] } (.vint 5) (.root [])
        "T" false) := by
  constructor
  · exact termination_and_visited_skip.2.1 [] 0 { buffer := [], visited := [VId.root []] }
      (.vint 5) (.root []) "T" false (by decide)
  · exact termination_and_visited_skip.2.2.1 [] 0 { buffer := [], visited := [VId.root [7]] }
      (.vint 5) (.root []) "T" false (by decide)

/-- Claim C7 (counterexample): the claim says a field with omit-empty set
and a non-zero value produces its line.  A channel-typed field tagged
`MYCHAN,omitempty` with a non-empty value produces no line at all — the
whole encode fails with UnsupportedType instead. -/
theorem omitempty_unsupported_cex :
    Marshal [] (.vstruct (.cons "A" "MYCHAN,omitempty" (.vother .noLen "chan int" 0) .nil)) =
      some (.error (.wrapped "A" (.unsupportedType "chan int"))) := by
  decide

/-- Claim C7 (amended): for fields of supported scalar kind (integer,
unsigned integer, float, string) with the omit-empty flag set and a
non-empty effective name, emission is suppressed exactly when the value
is the zero value of its kind, and any non-zero value produces exactly
its line; a null reference emits nothing; an unsupported-kind field whose
value is empty is silently skipped under omit-empty, while a non-empty
value of an unsupported kind fails with UnsupportedType despite the
flag. -/
theorem omitempty_suppression_amended :
    (∀ (heap : List Value) (fuel : Nat) (st : encodeState) (id : VId) (tag : String) (n : Int),
      id ∉ st.visited → tag ≠ "" →
      visitValue heap (fuel + 1) st (.vint n) id tag true =
        .ok { buffer := if n = 0 then st.buffer
                else st.buffer ++ ["export " ++ tag ++ "=\x27" ++ toString n ++ "\x27\n"],
              visited := id :: st.visited }) ∧
    (∀ (heap : List Value) (fuel : Nat) (st : encodeState) (id : VId) (tag : String) (n : Nat),
      id ∉ st.visited → tag ≠ "" →
      visitValue heap (fuel + 1) st (.vuint n) id tag true =
        .ok { buffer := if n = 0 then st.buffer
                else st.buffer ++ ["export " ++ tag ++ "=\x27" ++ toString n ++ "\x27\n"],
              visited := id :: st.visited }) ∧
    (∀ (heap : List Value) (fuel : Nat) (st : encodeState) (id : VId) (tag : String)
        (render : String) (isZero : Bool), id ∉ st.visited → tag ≠ "" →
      visitValue heap (fuel + 1) st (.vfloat render isZero) id tag true =
        .ok { buffer := if isZero then st.buffer
                else st.buffer ++ ["export " ++ tag ++ "=\x27" ++ render ++ "\x27\n"],
              visited := id :: st.visited }) ∧
    (∀ (heap : List Value) (fuel : Nat) (st : encodeState) (id : VId) (tag : String) (s : String),
      id ∉ st.visited → tag ≠ "" →
      visitValue heap (fuel + 1) st (.vstr s) id tag true =
        .ok { buffer := if s = "" then st.buffer
                else st.buffer ++ ["export " ++ tag ++ "=\x27" ++ s ++ "\x27\n"],
              visited := id :: st.visited }) ∧
    (∀ (heap : List Value) (fuel : Nat) (st : encodeState) (id : VId) (tag : String) (oe : Bool),
      id ∉ st.visited →
      visitValue heap (fuel + 1) st (.vptr none) id tag oe =
        .ok { st with visited := id :: st.visited }) ∧
    (∀ (heap : List Value) (fuel : Nat) (st : encodeState) (id : VId) (tag : String)
        (k : OtherKind) (tn : String) (len : Nat),
      id ∉ st.visited → isEmptyValue (.vother k tn len) = true →
      visitValue heap (fuel + 1) st (.vother k tn len) id tag true =
        .ok { st with visited := id :: st.visited }) ∧
    (∀ (heap : List Value) (fuel : Nat) (st : encodeState) (id : VId) (tag : String)
        (k : OtherKind) (tn : String) (len : Nat),
      id ∉ st.visited → tag ≠ "" → isEmptyValue (.vother k tn len) = false →
      visitValue heap (fuel + 1) st (.vother k tn len) id tag true =
        .err (.unsupportedType tn) { st with visited := id :: st.visited }) := by
  refine ⟨?_, ?_, ?_, ?_, ?_, ?_, ?_⟩
  · intro heap fuel st id tag n hid htag
    by_cases hn : n = 0
    · subst hn
      simp [visitValue, hid, htag, isEmptyValue]
    · simp [visitValue, hid, htag, isEmptyValue, hn]
  · intro heap fuel st id tag n hid htag
    by_cases hn : n = 0
    · subst hn
      simp [visitValue, hid, htag, isEmptyValue]
    · simp [visitValue, hid, htag, isEmptyValue, hn]
  · intro heap fuel st id tag render isZero hid htag
    cases isZero with
    | true => simp [visitValue, hid, htag, isEmptyValue]
    | false => simp [visitValue, hid, htag, isEmptyValue]
  · intro heap fuel st id tag s hid htag
    by_cases hs : s = ""
    · subst hs
      simp [visitValue, hid, htag, isEmptyValue]
    · have hlen : s.length ≠ 0 := fun h => hs (String.ext (List.length_eq_zero.mp h))
      simp [visitValue, hid, htag, isEmptyValue, hs, hlen]
  · intro heap fuel st id tag oe hid
    simp [visitValue, hid]
  · intro heap fuel st id tag k tn len hid hemp
    simp [visitValue, hid, hemp]
  · intro heap fuel st id tag k tn len hid htag hemp
    simp [visitValue, hid, htag, hemp]

/-- Claim C7 (witness): the amended suppression rules at concrete
values, including a zero and a non-zero float. -/
theorem omitempty_suppression_amended_witness :
    visitValue [] 1 { buffer := [], visited := [] } (.vint 0) (.root []) "N" true =
      .ok { buffer := if (0 : Int) = 0 then [] else [] ++ ["export N=\x270\x27\n"],
            visited := [VId.root []] } ∧
    visitValue [] 1 { buffer := [], visited := [] } (.vint 3) (.root []) "N" true =
      .ok { buffer := if (3 : Int) = 0 then [] else [] ++ ["export N=\x273\x27\n"],
            visited := [VId.root []] } ∧
    visitValue [] 1 { buffer := [], visited := [] } (.vfloat "0" true) (.root []) "F" true =
      .ok { buffer := if true then [] else [] ++ ["export F=\x270\x27\n"],
            visited := [VId.root []] } ∧
    visitValue [] 1 { buffer := [], visited := [] } (.vfloat "1.5" false) (.root []) "F" true =
      .ok { buffer := if false then [] else [] ++ ["export F=\x271.5\x27\n"],
            visited := [VId.root []] } ∧
    visitValue [] 1 { buffer := [], visited := [] } (.vptr none) (.root []) "P" true =
      .ok { buffer := [], visited := [VId.root []] } ∧
    visitValue [] 1 { buffer := [], visited := [] } (.vother .hasLen "[]string" 0)
      (.root []) "S" true = .ok { buffer := [], visited := [VId.root []] } ∧
    visitValue [] 1 { buffer := [], visited := [] } (.vother .noLen "chan int" 0)
      (.root []) "S" true =
      .err (.unsupportedType "chan int") { buffer := [], visited := [VId.root []] } := by
  refine ⟨?_, ?_, ?_, ?_, ?_, ?_, ?_⟩
  · exact omitempty_suppression_amended.1 [] 0 { buffer := [], visited := [] } (.root [])
      "N" 0 (by decide) (by decide)
  · exact omitempty_suppression_amended.1 [] 0 { buffer := [], visited := [] } (.root [])
      "N" 3 (by decide) (by decide)
  · exact omitempty_suppression_amended.2.2.1 [] 0 { buffer := [], visited := [] }
      (.root []) "F" "0" true (by decide) (by decide)
  · exact omitempty_suppression_amended.2.2.1 [] 0 { buffer := [], visited := [] }
      (.root []) "F" "1.5" false (by decide) (by decide)
  · exact omitempty_suppression_amended.2.2.2.2.1 [] 0 { buffer := [], visited := [] }
      (.root []) "P" true (by decide)
  · exact omitempty_suppression_amended.2.2.2.2.2.1 [] 0 { buffer := [], visited := [] }
      (.root []) "S" .hasLen "[]string" 0 (by decide) (by decide)
  · exact omitempty_suppression_amended.2.2.2.2.2.2 [] 0 { buffer := [], visited := [] }
      (.root []) "S" .noLen "chan int" 0 (by decide) (by decide) (by decide)

/-- Claim C8: a field with an empty effective name is never emitted and
never causes an error, whatever its kind (including unsupported kinds and
booleans); and an unsupported-kind field whose value is empty is silently
skipped when its omit-empty flag is set, whatever its name. -/
theorem untagged_fields_ignored :
    (∀ (heap : List Value) (fuel : Nat) (st : encodeState) (id : VId) (oe : Bool) (n : Int),
      id ∉ st.visited →
      visitValue heap (fuel + 1) st (.vint n) id "" oe =
        .ok { st with visited := id :: st.visited }) ∧
    (∀ (heap : List Value) (fuel : Nat) (st : encodeState) (id : VId) (oe : Bool) (n : Nat),
      id ∉ st.visited →
      visitValue heap (fuel + 1) st (.vuint n) id "" oe =
        .ok { st with visited := id :: st.visited }) ∧
    (∀ (heap : List Value) (fuel : Nat) (st : encodeState) (id : VId) (oe : Bool) (s : String),
      id ∉ st.visited →
      visitValue heap (fuel + 1) st (.vstr s) id "" oe =
        .ok { st with visited := id :: st.visited }) ∧
    (∀ (heap : List Value) (fuel : Nat) (st : encodeState) (id : VId) (oe : Bool) (b : Bool),
      id ∉ st.visited →
      visitValue heap (fuel + 1) st (.vbool b) id "" oe =
        .ok { st with visited := id :: st.visited }) ∧
    (∀ (heap : List Value) (fuel : Nat) (st : encodeState) (id : VId) (oe : Bool)
        (k : OtherKind) (tn : String) (len : Nat),
      id ∉ st.visited →
      visitValue heap (fuel + 1) st (.vother k tn len) id "" oe =
        .ok { st with visited := id :: st.visited }) ∧
    (∀ (heap : List Value) (fuel : Nat) (st : encodeState) (id : VId) (tag : String)
        (k : OtherKind) (tn : String) (len : Nat),
      id ∉ st.visited → isEmptyValue (.vother k tn len) = true →
      visitValue heap (fuel + 1) st (.vother k tn len) id tag true =
        .ok { st with visited := id :: st.visited }) := by
  refine ⟨?_, ?_, ?_, ?_, ?_, ?_⟩
  · intro heap fuel st id oe n hid
    simp [visitValue, hid]
  · intro heap fuel st id oe n hid
    simp [visitValue, hid]
  · intro heap fuel st id oe s hid
    simp [visitValue, hid]
  · intro heap fuel st id oe b hid
    simp [visitValue, hid]
  · intro heap fuel st id oe k tn len hid
    simp [visitValue, hid]
  · intro heap fuel st id tag k tn len hid hemp
    simp [visitValue, hid, hemp]

/-- Claim C8 (witness): untagged unsupported and scalar fields at a
concrete state. -/
theorem untagged_fields_ignored_witness :
    visitValue [] 1 { buffer := [], visited := [] } (.vother .noLen "chan int" 0)
      (.root []) "" false = .ok { buffer := [], visited := [VId.root []] } ∧
    visitValue [] 1 { buffer := [], visited := [] } (.vstr "x") (.root []) "" false =
      .ok { buffer := [], visited := [VId.root []] } ∧
    visitValue [] 1 { buffer := [], visited := [] } (.vother .hasLen "map[string]int" 0)
      (.root []) "M" true = .ok { buffer := [], visited := [VId.root []] } := by
  refine ⟨?_, ?_, ?_⟩
  · exact untagged_fields_ignored.2.2.2.2.1 [] 0 { buffer := [], visited := [] }
      (.root []) false .noLen "chan int" 0 (by decide)
  · exact untagged_fields_ignored.2.2.1 [] 0 { buffer := [], visited := [] }
      (.root []) false "x" (by decide)
  · exact untagged_fields_ignored.2.2.2.2.2 [] 0 { buffer := [], visited := [] }
      (.root []) "M" .hasLen "map[string]int" 0 (by decide) (by decide)

/-- Claim C9: the declared name is the text before the first comma; the
omit-empty flag is set exactly when `omitempty` occurs among the
comma-separated segments after the first comma; and two annotations that
agree on declared name and on the omit-empty test encode a field
identically, so any other option token has no effect on the output. -/
theorem tag_parsing :
    (∀ t : String, ((parseTag t).1).data = t.data.takeWhile (fun c => c != ',')) ∧
    (∀ t : String, tagOptions.Contains (parseTag t).2 "omitempty" = true ↔
      "omitempty".data ∈ (segs t.data).tail) ∧
    (∀ (heap : List Value) (fuel : Nat) (st : encodeState) (i : Nat) (id : VId)
        (tag fname t1 t2 : String) (w : Value),
      (parseTag t1).1 = (parseTag t2).1 →
      tagOptions.Contains (parseTag t1).2 "omitempty" =
        tagOptions.Contains (parseTag t2).2 "omitempty" →
      visitFields (visitValue heap fuel) st (.cons fname t1 w .nil) i id tag =
        visitFields (visitValue heap fuel) st (.cons fname t2 w .nil) i id tag) := by
  refine ⟨parseTag_fst_data, parseTag_snd_omitempty, ?_⟩
  intro heap fuel st i id tag fname t1 t2 w h1 h2
  rw [visitFields_cons, visitFields_cons, h1, h2]

/-- Claim C9 (witness): the parsing rules at concrete annotations; the
inert token `foo` does not change the encoding. -/
theorem tag_parsing_witness :
    ((parseTag "NAME,foo,omitempty").1).data =
      ("NAME,foo,omitempty" : String).data.takeWhile (fun c => c != ',') ∧
    tagOptions.Contains (parseTag "NAME,foo,omitempty").2 "omitempty" = true ∧
    visitFields (visitValue [] 1) { buffer := [], visited := [] }
        (.cons "A" "X,foo" (.vstr "v") .nil) 0 (.root []) "" =
      visitFields (visitValue [] 1) { buffer := [], visited := [] }
        (.cons "A" "X" (.vstr "v") .nil) 0 (.root []) "" := by
  refine ⟨tag_parsing.1 "NAME,foo,omitempty", ?_, ?_⟩
  · exact (tag_parsing.2.1 "NAME,foo,omitempty").mpr (by decide)
  · exact tag_parsing.2.2 [] 1 { buffer := [], visited := [] } 0 (.root []) "" "A"
      "X,foo" "X" (.vstr "v") (by decide) (by decide)

/-- Claim C10 (counterexample): the claim says every record containing a
boolean field with a non-empty effective name fails with UnsupportedType
carrying "bool" (unless omit-empty and false).  A record whose boolean
field is preceded by a slice field fails with "[]string" instead: the
first error encountered aborts the walk, so the error does not carry
"bool". -/
theorem bool_error_order_cex :
    Marshal [] (.vstruct (.cons "A" "S" (.vother .hasLen "[]string" 2)
        (.cons "B" "FLAG" (.vbool true) .nil))) =
      some (.error (.wrapped "A" (.unsupportedType "[]string"))) ∧
    errorsIs (.wrapped "A" (.unsupportedType "[]string")) (.unsupportedType "bool") = false := by
  decide

/-- Claim C10 (amended): visiting a boolean field with a non-empty
effective name fails with UnsupportedType "bool" unless the omit-empty
flag is set and the value is false, in which case it is skipped; hence a
record whose boolean field is the first offending field reached fails
with an error that errors.Is-matches the bare UnsupportedType "bool". -/
theorem bool_unsupported_amended :
    (∀ (heap : List Value) (fuel : Nat) (st : encodeState) (id : VId) (tag : String)
        (oe b : Bool), id ∉ st.visited → tag ≠ "" → (oe = false ∨ b = true) →
      visitValue heap (fuel + 1) st (.vbool b) id tag oe =
        .err (.unsupportedType "bool") { st with visited := id :: st.visited }) ∧
    (∀ (heap : List Value) (fuel : Nat) (st : encodeState) (id : VId) (tag : String),
      id ∉ st.visited →
      visitValue heap (fuel + 1) st (.vbool false) id tag true =
        .ok { st with visited := id :: st.visited }) ∧
    Marshal [] (.vstruct (.cons "A" "FLAG" (.vbool true) .nil)) =
      some (.error (.wrapped "A" (.unsupportedType "bool"))) ∧
    errorsIs (.wrapped "A" (.unsupportedType "bool")) (.unsupportedType "bool") = true ∧
    Marshal [] (.vstruct (.cons "A" "FLAG,omitempty" (.vbool false) .nil)) = some (.ok "") ∧
    Marshal [] (.vstruct (.cons "A" "FLAG" (.vbool false) .nil)) =
      some (.error (.wrapped "A" (.unsupportedType "bool"))) := by
  refine ⟨?_, ?_, by decide, by decide, by decide, by decide⟩
  · intro heap fuel st id tag oe b hid htag hob
    rcases hob with h | h
    · subst h
      simp [visitValue, hid, htag]
    · subst h
      simp [visitValue, hid, htag, isEmptyValue]
  · intro heap fuel st id tag hid
    simp [visitValue, hid, isEmptyValue]

/-- Claim C10 (witness): the boolean rules at a concrete state. -/
theorem bool_unsupported_amended_witness :
    visitValue [] 1 { buffer := [], visited := [] } (.vbool true) (.root []) "FLAG" true =
      .err (.unsupportedType "bool") { buffer := [], visited := [VId.root []] } ∧
    visitValue [] 1 { buffer := [], visited := [] } (.vbool false) (.root []) "FLAG" true =
      .ok { buffer := [], visited := [VId.root []] } := by
  constructor
  · exact bool_unsupported_amended.1 [] 0 { buffer := [], visited := [] } (.root [])
      "FLAG" true true (by decide) (by decide) (Or.inr rfl)
  · exact bool_unsupported_amended.2.1 [] 0 { buffer := [], visited := [] } (.root [])
      "FLAG" (by decide)
